import Mathlib

/-!
Verification development for the repository fragment consisting of
`ros2cli/ros2cli/helpers.py` and `ros2param/ros2param/verb/list.py`.

The Python sources are embedded shallowly:

* `helpers.wait_for` becomes `wait_for`, a fuelled poll loop over a
  discrete clock.  The impure zero-argument predicate is modelled as a
  function of time; time advances only while the loop sleeps, so the
  time at the k-th loop check is `t0 + k * period`.  Fuel exhaustion
  (`none`) models non-termination of the unbounded loop.
* `helpers.bind` becomes `bindFunc` over a model of Python callables
  that carry an introspectable signature.
* `ListVerb.main` becomes `mainModel`, parametrised by a `World` that
  supplies everything the middleware owns: discovered node names,
  discovered service names, per-round client readiness, each node's
  response (or exception) to the `ListParameters` call, and the
  `DescribeParameters` responses.  Observable effects (created clients,
  issued calls, stdout, stderr, the raised `KeyError`) are collected in
  an `Output` record.
-/

/-! ### Predicate waiter: `ros2cli/helpers.py`, `wait_for` -/

/-- Time at the k-th loop check of the waiter: the loop sleeps a fixed
`period` between checks, so the clock at check `k` reads `t0 + k * period`. -/
def timeAt (t0 period k : Nat) : Nat := t0 + k * period

/-- Deadline test of the waiter at check `k`.  The source sets
`timeout = float(+inf)` when `timeout < 0` (so `time.time() > deadline` is
never true) and otherwise breaks once `time.time() > deadline` with
`deadline = t0 + timeout`. -/
def deadlineOver (t0 : Nat) (timeout : Int) (period k : Nat) : Bool :=
  if timeout < 0 then false
  else decide (((timeAt t0 period k : Nat) : Int) > (t0 : Int) + timeout)

/-- The `while not predicate(): if time.time() > deadline: break; sleep(period)`
loop, with `check k` the predicate value at check `k` and `stop k` the deadline
test at check `k`.  Returns the check index at which the loop exits, or `none`
when the fuel runs out (the loop did not terminate within `fuel` checks). -/
def waitForLoop (check stop : Nat → Bool) : Nat → Nat → Option Nat
  | 0, _ => none
  | fuel + 1, k =>
    if check k then some k
    else if stop k then some k
    else waitForLoop check stop fuel (k + 1)

/-- `helpers.wait_for`: polls the predicate, breaking on success or on a passed
deadline, then returns one final evaluation of the predicate.  The result pairs
the returned value with the number of sleeps performed; `none` models the loop
running forever. -/
def wait_for (pred : Nat → Bool) (timeout : Int) (period t0 fuel : Nat) :
    Option (Bool × Nat) :=
  match waitForLoop (fun k => pred (timeAt t0 period k))
      (fun k => deadlineOver t0 timeout period k) fuel 0 with
  | some k => some (pred (timeAt t0 period k), k)
  | none => none

theorem timeAt_zero (t0 period : Nat) : timeAt t0 period 0 = t0 := by
  simp [timeAt]

theorem waitForLoop_exit (check stop : Nat → Bool) :
    ∀ fuel k0 k, waitForLoop check stop fuel k0 = some k →
      k0 ≤ k ∧ (check k = true ∨ stop k = true) := by
  intro fuel
  induction fuel with
  | zero => intro k0 k h; simp [waitForLoop] at h
  | succ n ih =>
    intro k0 k h
    simp only [waitForLoop] at h
    by_cases hc : check k0 = true
    · simp [hc] at h
      exact ⟨Nat.le_of_eq (by omega), by rw [← h]; exact Or.inl hc⟩
    · simp [hc] at h
      by_cases hs : stop k0 = true
      · simp [hs] at h
        exact ⟨Nat.le_of_eq (by omega), by rw [← h]; exact Or.inr hs⟩
      · simp [hs] at h
        obtain ⟨h1, h2⟩ := ih (k0 + 1) k h
        exact ⟨by omega, h2⟩

theorem waitForLoop_first (check stop : Nat → Bool) (fuel k0 : Nat)
    (hfuel : 0 < fuel) (hc : check k0 = true) :
    waitForLoop check stop fuel k0 = some k0 := by
  cases fuel with
  | zero => omega
  | succ n => simp [waitForLoop, hc]

theorem waitForLoop_never (check stop : Nat → Bool)
    (hc : ∀ k, check k = false) (hs : ∀ k, stop k = false) :
    ∀ fuel k0, waitForLoop check stop fuel k0 = none := by
  intro fuel
  induction fuel with
  | zero => intro k0; simp [waitForLoop]
  | succ n ih => intro k0; simp [waitForLoop, hc, hs, ih]

theorem waitForLoop_reaches (check stop : Nat → Bool) :
    ∀ d k0 fuel, check (k0 + d) = true → d < fuel →
      ∃ k, waitForLoop check stop fuel k0 = some k := by
  intro d
  induction d with
  | zero =>
    intro k0 fuel hc hlt
    exact ⟨k0, waitForLoop_first check stop fuel k0 (by omega) (by simpa using hc)⟩
  | succ m ih =>
    intro k0 fuel hc hlt
    cases fuel with
    | zero => omega
    | succ n =>
      by_cases h0 : check k0 = true
      · exact ⟨k0, waitForLoop_first check stop (n + 1) k0 (by omega) h0⟩
      · by_cases hs0 : stop k0 = true
        · exact ⟨k0, by simp [waitForLoop, h0, hs0]⟩
        · have : check ((k0 + 1) + m) = true := by
            have : k0 + (m + 1) = (k0 + 1) + m := by omega
            rwa [this] at hc
          obtain ⟨k, hk⟩ := ih (k0 + 1) n this (by omega)
          exact ⟨k, by simp [waitForLoop, h0, hs0, hk]⟩

/-! ### Callable model: `ros2cli/helpers.py`, `bind`

A Python callable is modelled by its introspectable signature (the list of
parameter names reported by `inspect.signature`) together with its behaviour on
positional and keyword arguments.  Keyword argument dictionaries are modelled
as partial maps; `functools.partial` merges its stored keywords with the
call-time keywords, call-time bindings winning, exactly as in
`{**self.keywords, **kwargs}`. -/

/-- Model of a Python callable: `sig` is what `inspect.signature` reports,
`call` its behaviour on positional and keyword arguments. -/
structure PyFunc (V : Type) where
  sig : List String
  call : List V → (String → Option V) → V

/-- Dictionary merge `{**kw1, **kw2}`: call-time bindings (`kw2`) win. -/
def kwMerge {V : Type} (kw1 kw2 : String → Option V) : String → Option V :=
  fun s =>
    match kw2 s with
    | some v => some v
    | none => kw1 s

/-- The empty keyword dictionary. -/
def noKw {V : Type} : String → Option V := fun _ => none

/-- The signature a bare `functools.partial` object would expose to
introspection: the generic variadic `(*args, **kwargs)`. -/
def genericVariadicSig : List String := ["*args", "**kwargs"]

/-- `helpers.bind`: wraps `functools.partial(func, *args, **kwargs)` in a real
function whose `__signature__` is reset to `inspect.signature(func)`. -/
def bindFunc {V : Type} (f : PyFunc V) (args : List V) (kw : String → Option V) :
    PyFunc V :=
  { sig := f.sig
    call := fun args2 kw2 => f.call (args ++ args2) (kwMerge kw kw2) }

/-- A sample two-parameter function used to exercise `bindFunc` concretely. -/
def sampleAdd : PyFunc Nat :=
  { sig := ["x", "y"]
    call := fun args _ => args.foldl (· + ·) 0 }

/-! ### Regex model: Python's `re.match` used by the `--filter` option

The filtering primitive of the verb is `re.compile(pattern).match(name)`.
Modelled from the spec: the `re` library is external; per the spec the filter
keeps "only names fully matching it via match-from-start semantics (not
full-string equality — a prefix match suffices)".  The regex language is given
by an abstract syntax tree and a Brzozowski-derivative matcher; `rmatch`
anchors at the start of the string and succeeds as soon as any prefix of the
string matches, which is exactly `re.match`'s acceptance condition.  The `bol`
atom is the pattern `^`, an empty-width assertion holding only at position 0;
the position-is-zero flag is threaded through the matcher. -/

inductive Rx where
  | void : Rx
  | eps : Rx
  | bol : Rx
  | chr : Char → Rx
  | dot : Rx
  | cat : Rx → Rx → Rx
  | alt : Rx → Rx → Rx
  | star : Rx → Rx
deriving DecidableEq

/-- Does `r` accept the empty string at the current position?  `st` records
whether the current position is the start of the subject string (needed for
the `^` assertion). -/
def Rx.nullable : Rx → Bool → Bool
  | .void, _ => false
  | .eps, _ => true
  | .bol, st => st
  | .chr _, _ => false
  | .dot, _ => false
  | .cat a b, st => a.nullable st && b.nullable st
  | .alt a b, st => a.nullable st || b.nullable st
  | .star _, _ => true

/-- Brzozowski derivative of `r` by the character `c` read at a position whose
start-of-string status is `st`. -/
def Rx.deriv : Rx → Bool → Char → Rx
  | .void, _, _ => .void
  | .eps, _, _ => .void
  | .bol, _, _ => .void
  | .chr d, _, c => if c = d then .eps else .void
  | .dot, _, _ => .eps
  | .cat a b, st, c =>
    if a.nullable st then .alt (.cat (a.deriv st c) b) (b.deriv st c)
    else .cat (a.deriv st c) b
  | .alt a b, st, c => .alt (a.deriv st c) (b.deriv st c)
  | .star a, st, c => .cat (a.deriv st c) (.star a)

/-- Whole-list match: `r` consumes exactly the given character list.  `st`
records whether the list starts at position 0 of the subject string. -/
def Rx.matchWhole (r : Rx) (st : Bool) : List Char → Bool
  | [] => r.nullable st
  | c :: cs => (r.deriv st c).matchWhole false cs

/-- Match-from-start: `r` consumes some prefix of the given character list. -/
def Rx.matchFrom (r : Rx) (st : Bool) : List Char → Bool
  | [] => r.nullable st
  | c :: cs => r.nullable st || (r.deriv st c).matchFrom false cs

/-- `re.match(pattern, name)` viewed as a Boolean: true iff some prefix of
`name`, starting at position 0, matches the pattern. -/
def Rx.rmatch (r : Rx) (s : String) : Bool := r.matchFrom true s.data

/-- The pattern `^x` of the spec's filtering example. -/
def rxCaretX : Rx := .cat .bol (.chr 'x')

theorem matchFrom_of_nullable (r : Rx) (st : Bool) (q : List Char)
    (h : r.nullable st = true) : r.matchFrom st q = true := by
  cases q <;> simp [Rx.matchFrom, h]

theorem matchFrom_of_matchWhole (r : Rx) (st : Bool) :
    ∀ p q : List Char, r.matchWhole st p = true → r.matchFrom st (p ++ q) = true := by
  intro p
  induction p generalizing r st with
  | nil =>
    intro q h
    simp only [Rx.matchWhole] at h
    simpa using matchFrom_of_nullable r st q h
  | cons c cs ih =>
    intro q h
    simp only [Rx.matchWhole] at h
    simp only [List.cons_append, Rx.matchFrom, Bool.or_eq_true]
    exact Or.inr (ih (r.deriv st c) false q h)

theorem matchWhole_of_matchFrom (r : Rx) (st : Bool) :
    ∀ s : List Char, r.matchFrom st s = true →
      ∃ p q : List Char, s = p ++ q ∧ r.matchWhole st p = true := by
  intro s
  induction s generalizing r st with
  | nil =>
    intro h
    exact ⟨[], [], rfl, by simpa [Rx.matchFrom] using h⟩
  | cons c cs ih =>
    intro h
    simp only [Rx.matchFrom, Bool.or_eq_true] at h
    rcases h with h | h
    · exact ⟨[], c :: cs, rfl, by simpa [Rx.matchWhole] using h⟩
    · obtain ⟨p, q, hpq, hm⟩ := ih (r.deriv st c) false h
      exact ⟨c :: p, q, by simp [hpq], by simpa [Rx.matchWhole] using hm⟩

/-! ### The parameter-listing verb: `ros2param/verb/list.py`, `ListVerb.main` -/

/-- Modelled from the spec: a ProcessName is "a hierarchical string identifier
(namespace + local name) uniquely identifying a running process instance; used
as the map key throughout".  The middleware's node-name record (external
`ros2node.api`) is reduced to that identifying string, which is the only field
the verb reads (`n.full_name`). -/
structure NodeName where
  full_name : String
deriving DecidableEq

/-- Comparison of node names, by the identifying string. -/
def nodeLe (a b : NodeName) : Prop := a.full_name ≤ b.full_name

instance : DecidableRel nodeLe := fun a b =>
  inferInstanceAs (Decidable (a.full_name ≤ b.full_name))

instance : IsTotal NodeName nodeLe :=
  ⟨fun a b => le_total a.full_name b.full_name⟩

instance : IsTrans NodeName nodeLe :=
  ⟨fun _ _ _ h1 h2 => le_trans h1 h2⟩

instance : IsAntisymm NodeName nodeLe := by
  refine ⟨fun a b h1 h2 => ?_⟩
  cases a
  cases b
  exact congrArg NodeName.mk (le_antisymm h1 h2)

/-- `sorted(futures.keys())`: node names in ascending order of the identifying
string. -/
def sortNodes (l : List NodeName) : List NodeName := List.insertionSort nodeLe l

instance : DecidableRel (fun a b : String => a ≤ b) := fun a b =>
  inferInstanceAs (Decidable (a ≤ b))

/-- `sorted(response.result.names)`: lexicographic sort of the name list. -/
def sortStrings (l : List String) : List String :=
  List.insertionSort (fun a b : String => a ≤ b) l

/-- A descriptor from a `DescribeParameters` response: a parameter name and its
declared type code. -/
structure ParamDescriptor where
  name : String
  type : Nat
deriving DecidableEq

/-- The resolution of one pending `ListParameters` call: either a response
carrying the name list (`future.result()`), or a failure (`future.result()` is
`None`, timeout included) whose `future.exception()` prints as the carried
string. -/
inductive Outcome where
  | ok : List String → Outcome
  | err : String → Outcome
deriving DecidableEq

/-- Parsed command-line arguments of the verb.  `param_prefs` models
`--param-prefixes`; `filter` holds the compiled regex of `--filter`. -/
structure Args where
  node_name : Option String
  filter : Option Rx
  include_hidden_nodes : Bool
  param_prefs : List String
  param_type : Bool

/-- The environment owned by the middleware: discovery results (as functions
of the include-hidden flag), per-round client readiness, each node's response
to the listing call (as a function of the requested prefix list), the
`DescribeParameters` responses, and the external type-code-to-label mapping
`get_parameter_type_string`. -/
structure World where
  node_names : Bool → List NodeName
  service_names : Bool → List String
  ready : Nat → NodeName → Bool
  outcome : NodeName → List String → Outcome
  descriptors : String → List String → List ParamDescriptor
  typeStr : Nat → String

/-- Python truthiness of the optional string argument (`if node_name:` /
`if not args.node_name`): `None` and the empty string are falsy. -/
def pyTruthy : Option String → Bool
  | none => false
  | some s => s != ""

/-- Modelled from the spec: `get_absolute_node_name` of the external node API
resolves a possibly-relative process name "against a default namespace",
prepending the root `/` when absent; an absent or empty (falsy) name resolves
to an absent one. -/
def get_absolute_node_name : Option String → Option String
  | none => none
  | some s =>
    if s = "" then none
    else if s.data.head? = some '/' then some s
    else some ("/" ++ s)

/-- The service endpoint derived for a node:
`f-string node.full_name + "/list_parameters"`. -/
def listSvc (n : NodeName) : String := n.full_name ++ "/list_parameters"

/-- The client pool: one client per discovered node whose derived endpoint is
among the discovered service names, in discovery order. -/
def createClients (svc : List String) (nodes : List NodeName) : List NodeName :=
  nodes.filter (fun n => listSvc n ∈ svc)

/-- One readiness check of the fan-out pass: a ready client is called
asynchronously and its pending call recorded, an unready one is skipped. -/
def dispatchStep (rdy : NodeName → Bool) (fs : List NodeName) (n : NodeName) :
    List NodeName :=
  if rdy n then fs ++ [n] else fs

/-- One pass of the fan-out loop body: iterate the snapshot
`[n for n in clients.keys() if n not in futures]` and call every ready
client. -/
def dispatchPass (rdy : NodeName → Bool) (clients futures : List NodeName) :
    List NodeName :=
  (clients.filter (fun n => n ∉ futures)).foldl (dispatchStep rdy) futures

/-- The `while True` fan-out loop: run a pass, break once
`len(futures) == len(clients)`, otherwise spin the event loop (advancing the
readiness round) and retry.  `none` models the loop never terminating within
`fuel` rounds. -/
def dispatchLoop (rdy : Nat → NodeName → Bool) (clients : List NodeName) :
    Nat → Nat → List NodeName → Option (List NodeName)
  | _, 0, _ => none
  | round, fuel + 1, futures =>
    let fs := dispatchPass (rdy round) clients futures
    if fs.length = clients.length then some fs
    else dispatchLoop rdy clients (round + 1) fuel fs

/-- The stderr line printed for a failed call:
`Exception while calling service of node '<full_name>': <e>`. -/
def errLine (n : NodeName) (e : String) : String :=
  "Exception while calling service of node \x27" ++ n.full_name ++ "\x27: " ++ e

/-- A rendered plain report line `  <name>`. -/
def fmtPlain (name : String) : String := "  " ++ name

/-- A rendered type-annotated report line `  <name> (type: <label>)`. -/
def fmtTyped (name t : String) : String :=
  "  " ++ name ++ " (type: " ++ t ++ ")"

/-- The `KeyError` raised by an unguarded `name_to_type_map[name]` lookup. -/
def keyError (name : String) : String :=
  "KeyError: \x27" ++ name ++ "\x27"

/-- Lookup in the model of a Python dict built by repeated assignment: the
last binding of a key wins. -/
def dictLookup (k : String) : List (String × String) → Option String
  | [] => none
  | (a, b) :: rest =>
    match dictLookup k rest with
    | some v => some v
    | none => if a = k then some b else none

/-- `name_to_type_map`: one binding per response descriptor, mapping the
descriptor's name to its type label. -/
def typeMap (ts : Nat → String) (resp : List ParamDescriptor) :
    List (String × String) :=
  resp.map (fun d => (d.name, ts d.type))

/-- The type-annotated rendering loop: one line per name via an unguarded
dict lookup.  Returns the lines printed before any failure, and the raised
`KeyError` when a name has no binding. -/
def typedLines (tm : List (String × String)) : List String → List String × Option String
  | [] => ([], none)
  | name :: rest =>
    match dictLookup name tm with
    | none => ([], some (keyError name))
    | some t =>
      let p := typedLines tm rest
      (fmtTyped name t :: p.1, p.2)

/-- The regex filtering step: applied only when `--filter` was supplied, it
keeps the names accepted by `re.match`. -/
def filterNames (f : Option Rx) (names : List String) : List String :=
  match f with
  | none => names
  | some r => names.filter (fun nm => r.rmatch nm)

/-- Mutable state of the response-printing loop: stdout and stderr lines, the
`DescribeParameters` calls issued, and the pending raised exception (which
aborts the rest of the loop). -/
structure RunState where
  out : List String
  err : List String
  desc : List (String × List String)
  exc : Option String
deriving DecidableEq

/-- Initial state of the response-printing loop. -/
def initState : RunState := ⟨[], [], [], none⟩

/-- Processing of one node's future in the printing loop, mirroring the body
of `for node_name in sorted(futures.keys())`: a failed call prints one stderr
line and is skipped (`continue`); a successful one has its names sorted,
filtered, optionally preceded by a header, and rendered (plainly, or through
the describe-call and the type side table). -/
def reportStep (args : Args) (w : World) (s : RunState) (n : NodeName) : RunState :=
  if s.exc.isSome then s
  else
    match w.outcome n args.param_prefs with
    | .err e => { s with err := s.err ++ [errLine n e] }
    | .ok names =>
      let ns := filterNames args.filter (sortStrings names)
      let hdr := if pyTruthy args.node_name = false ∧ ns ≠ [] then [n.full_name ++ ":"] else []
      if args.param_type then
        let resp := w.descriptors n.full_name ns
        let tm := typeMap w.typeStr resp
        let tl := typedLines tm ns
        { s with
          out := s.out ++ hdr ++ tl.1
          desc := s.desc ++ [(n.full_name, ns)]
          exc := tl.2 }
      else
        { s with out := s.out ++ hdr ++ ns.map fmtPlain }

/-- The whole printing loop over a key sequence. -/
def reportAll (args : Args) (w : World) (ns : List NodeName) (s : RunState) : RunState :=
  ns.foldl (reportStep args w) s

/-- The per-name report lines of one successful node, after sorting and
filtering: type-annotated when `--param-type` was given, plain otherwise. -/
def bodyLines (args : Args) (w : World) (n : NodeName) (ns : List String) :
    List String :=
  if args.param_type then
    (typedLines (typeMap w.typeStr (w.descriptors n.full_name ns)) ns).1
  else ns.map fmtPlain

/-- Observable result of one invocation of the verb: the returned string (if
any), both output streams, the created clients, the issued listing calls with
their requested prefix lists, the issued describe calls, and the uncaught
exception (if any). -/
structure Output where
  ret : Option String
  stdout : List String
  stderr : List String
  clients : List NodeName
  calls : List (NodeName × List String)
  desc : List (String × List String)
  exc : Option String
deriving DecidableEq

/-- The output of the `return 'Node not found'` early exit: nothing was
created, called, or printed. -/
def notFoundOutput : Output :=
  { ret := some "Node not found"
    stdout := []
    stderr := []
    clients := []
    calls := []
    desc := []
    exc := none }

/-- The batch after target resolution: create the client pool, run the fan-out
loop, then print responses over the sorted keys.  `none` models the fan-out
loop stalling forever. -/
def runBatch (args : Args) (w : World) (fuel : Nat) (nodes : List NodeName) :
    Option Output :=
  let clients := createClients (w.service_names args.include_hidden_nodes) nodes
  match dispatchLoop w.ready clients 0 fuel [] with
  | none => none
  | some futures =>
    let s := reportAll args w (sortNodes futures) initState
    some
      { ret := none
        stdout := s.out
        stderr := s.err
        clients := clients
        calls := futures.map (fun n => (n, args.param_prefs))
        desc := s.desc
        exc := s.exc }

/-- `ListVerb.main`: discover nodes, resolve the optional target name, either
return `'Node not found'` or narrow discovery to the target, then run the
batch. -/
def mainModel (args : Args) (w : World) (fuel : Nat) : Option Output :=
  let node_names := w.node_names args.include_hidden_nodes
  match get_absolute_node_name args.node_name with
  | some nm =>
    if nm ∈ node_names.map NodeName.full_name then
      runBatch args w fuel (node_names.filter (fun n => nm = n.full_name))
    else some notFoundOutput
  | none => runBatch args w fuel node_names

/-! ### Supporting lemmas: the fan-out loop and the type side table -/

theorem foldl_dispatchStep_mem (rdy : NodeName → Bool) :
    ∀ (pend fut : List NodeName) (x : NodeName),
      x ∈ pend.foldl (dispatchStep rdy) fut ↔
        x ∈ fut ∨ (x ∈ pend ∧ rdy x = true) := by
  intro pend
  induction pend with
  | nil => intro fut x; simp
  | cons c cs ih =>
    intro fut x
    simp only [List.foldl_cons, dispatchStep, ih, List.mem_cons]
    by_cases hr : rdy c = true
    · rw [if_pos hr]
      simp only [List.mem_append, List.mem_singleton]
      constructor
      · rintro ((h | rfl) | h)
        · exact Or.inl h
        · exact Or.inr ⟨Or.inl rfl, hr⟩
        · exact Or.inr ⟨Or.inr h.1, h.2⟩
      · rintro (h | ⟨(rfl | h), hx⟩)
        · exact Or.inl (Or.inl h)
        · exact Or.inl (Or.inr rfl)
        · exact Or.inr ⟨h, hx⟩
    · rw [if_neg hr]
      constructor
      · rintro (h | h)
        · exact Or.inl h
        · exact Or.inr ⟨Or.inr h.1, h.2⟩
      · rintro (h | ⟨(rfl | h), hx⟩)
        · exact Or.inl h
        · exact absurd hx hr
        · exact Or.inr ⟨h, hx⟩

theorem foldl_dispatchStep_nodup (rdy : NodeName → Bool) :
    ∀ (pend fut : List NodeName), fut.Nodup → pend.Nodup →
      (∀ x ∈ pend, x ∉ fut) → (pend.foldl (dispatchStep rdy) fut).Nodup := by
  intro pend
  induction pend with
  | nil => intro fut hf _ _; simpa using hf
  | cons c cs ih =>
    intro fut hf hp hdisj
    simp only [List.nodup_cons] at hp
    by_cases hr : rdy c = true
    · simp only [List.foldl_cons, dispatchStep]
      rw [if_pos hr]
      refine ih (fut ++ [c]) ?_ hp.2 ?_
      · rw [List.nodup_append]
        refine ⟨hf, List.nodup_singleton c, ?_⟩
        intro a ha hb
        rw [List.mem_singleton] at hb
        subst hb
        exact hdisj a (List.mem_cons_self a cs) ha
      · intro x hx
        simp only [List.mem_append, List.mem_singleton]
        rintro (h | h)
        · exact hdisj x (List.mem_cons_of_mem c hx) h
        · subst h; exact hp.1 hx
    · simp only [List.foldl_cons, dispatchStep]
      rw [if_neg hr]
      exact ih fut hf hp.2 (fun x hx => hdisj x (List.mem_cons_of_mem c hx))

theorem dispatchPass_mem (rdy : NodeName → Bool) (clients fut : List NodeName)
    (x : NodeName) :
    x ∈ dispatchPass rdy clients fut ↔
      x ∈ fut ∨ (x ∈ clients ∧ x ∉ fut ∧ rdy x = true) := by
  simp only [dispatchPass, foldl_dispatchStep_mem, List.mem_filter,
    decide_not, Bool.not_eq_true', decide_eq_false_iff_not]
  tauto

theorem dispatchPass_nodup (rdy : NodeName → Bool) (clients fut : List NodeName)
    (hcl : clients.Nodup) (hf : fut.Nodup) :
    (dispatchPass rdy clients fut).Nodup := by
  refine foldl_dispatchStep_nodup rdy _ fut hf (hcl.filter _) ?_
  intro x hx
  simp only [List.mem_filter, decide_not, Bool.not_eq_true',
    decide_eq_false_iff_not] at hx
  exact hx.2

theorem dispatchPass_subset (rdy : NodeName → Bool) (clients fut : List NodeName)
    (hsub : fut ⊆ clients) : dispatchPass rdy clients fut ⊆ clients := by
  intro x hx
  rw [dispatchPass_mem] at hx
  rcases hx with h | h
  · exact hsub h
  · exact h.1

theorem dispatchLoop_some (rdy : Nat → NodeName → Bool) (clients : List NodeName)
    (hcl : clients.Nodup) :
    ∀ (fuel round : Nat) (fut fs : List NodeName), fut.Nodup → fut ⊆ clients →
      dispatchLoop rdy clients round fuel fut = some fs →
      fs.Nodup ∧ fs ⊆ clients ∧ fs.length = clients.length := by
  intro fuel
  induction fuel with
  | zero => intro round fut fs _ _ h; simp [dispatchLoop] at h
  | succ n ih =>
    intro round fut fs hnd hsub h
    simp only [dispatchLoop] at h
    by_cases hl : (dispatchPass (rdy round) clients fut).length = clients.length
    · rw [if_pos hl] at h
      obtain rfl := Option.some.inj h
      exact ⟨dispatchPass_nodup _ _ _ hcl hnd, dispatchPass_subset _ _ _ hsub, hl⟩
    · rw [if_neg hl] at h
      exact ih (round + 1) _ fs (dispatchPass_nodup _ _ _ hcl hnd)
        (dispatchPass_subset _ _ _ hsub) h

theorem perm_of_nodup_subset_length {l1 l2 : List NodeName}
    (hnd : l1.Nodup) (hsub : l1 ⊆ l2) (hlen : l1.length = l2.length) :
    l1.Perm l2 := by
  obtain ⟨l, hp, hs⟩ := List.subperm_of_subset hnd hsub
  have hl : l.length = l2.length := hp.length_eq.trans hlen
  have heq : l = l2 := hs.eq_of_length hl
  rw [← heq]
  exact hp.symm

theorem dictLookup_isSome (k : String) :
    ∀ tm : List (String × String), (dictLookup k tm).isSome = true ↔
      k ∈ tm.map Prod.fst := by
  intro tm
  induction tm with
  | nil => simp [dictLookup]
  | cons p rest ih =>
    obtain ⟨a, b⟩ := p
    simp only [List.map_cons, List.mem_cons]
    cases hrest : dictLookup k rest with
    | some v =>
      have hmem : k ∈ rest.map Prod.fst := ih.mp (by simp [hrest])
      simp [dictLookup, hrest, hmem]
    | none =>
      have hnm : ¬ k ∈ rest.map Prod.fst := by
        rw [← ih, hrest]; simp
      by_cases hak : a = k
      · subst hak; simp [dictLookup, hrest]
      · simp only [dictLookup, hrest, if_neg hak, Option.isSome_none,
          Bool.false_eq_true, false_iff, not_or]
        exact ⟨fun h => hak h.symm, hnm⟩

theorem typedLines_total (tm : List (String × String)) :
    ∀ ns : List String, (∀ name ∈ ns, (dictLookup name tm).isSome = true) →
      typedLines tm ns =
        (ns.map (fun name => fmtTyped name ((dictLookup name tm).getD "")), none) := by
  intro ns
  induction ns with
  | nil => intro _; simp [typedLines]
  | cons name rest ih =>
    intro hcov
    have h1 : (dictLookup name tm).isSome = true := hcov name (List.mem_cons_self _ _)
    obtain ⟨t, ht⟩ := Option.isSome_iff_exists.mp h1
    have h2 := ih (fun nm hnm => hcov nm (List.mem_cons_of_mem _ hnm))
    simp [typedLines, ht, h2]

/-! ### Claim theorems -/

/-- C1: if a target process name is supplied and, after resolution to an
absolute name, it is not among the discovered node names, the verb's main
operation returns the literal string "Node not found", creates no RPC clients,
performs no RPC calls, and produces no report output. -/
theorem listVerb_notFound (args : Args) (w : World) (fuel : Nat) (nm : String)
    (h1 : get_absolute_node_name args.node_name = some nm)
    (h2 : nm ∉ (w.node_names args.include_hidden_nodes).map NodeName.full_name) :
    mainModel args w fuel = some notFoundOutput ∧
      notFoundOutput.ret = some "Node not found" ∧
      notFoundOutput.clients = [] ∧ notFoundOutput.calls = [] ∧
      notFoundOutput.desc = [] ∧ notFoundOutput.stdout = [] ∧
      notFoundOutput.stderr = [] := by
  refine ⟨?_, rfl, rfl, rfl, rfl, rfl, rfl⟩
  simp [mainModel, h1, h2]

theorem listVerb_notFound_witness :
    mainModel
      { node_name := some "ghost"
        filter := none
        include_hidden_nodes := false
        param_prefs := []
        param_type := false }
      { node_names := fun _ => [⟨"/talker"⟩]
        service_names := fun _ => ["/talker/list_parameters"]
        ready := fun _ _ => true
        outcome := fun _ _ => .ok []
        descriptors := fun _ _ => []
        typeStr := fun _ => "" } 1 = some notFoundOutput :=
  (listVerb_notFound _ _ 1 "/ghost" (by decide) (by decide)).1

/-- C6: `wait_for` returns the value of a final evaluation of the predicate:
the returned value is the predicate's value at the exit time; the loop exits
only because the predicate held or the deadline had passed (so after the
deadline the final evaluation is returned regardless of the deadline outcome);
and a predicate already true on the first check returns immediately, with zero
sleeps. -/
theorem wait_for_final (pred : Nat → Bool) (timeout : Int) (period t0 fuel : Nat)
    (b : Bool) (k : Nat)
    (h : wait_for pred timeout period t0 fuel = some (b, k)) :
    b = pred (timeAt t0 period k) ∧
      (pred (timeAt t0 period k) = true ∨ deadlineOver t0 timeout period k = true) ∧
      (pred t0 = true → k = 0) := by
  unfold wait_for at h
  cases hl : waitForLoop (fun j => pred (timeAt t0 period j))
      (fun j => deadlineOver t0 timeout period j) fuel 0 with
  | none => rw [hl] at h; simp at h
  | some k0 =>
    rw [hl] at h
    simp only [Option.some.injEq, Prod.mk.injEq] at h
    obtain ⟨hb, hk⟩ := h
    subst hk
    have hexit := waitForLoop_exit _ _ fuel 0 k0 hl
    refine ⟨hb.symm, hexit.2, ?_⟩
    intro hp0
    have hfuel : 0 < fuel := by
      cases fuel with
      | zero => simp [waitForLoop] at hl
      | succ n => omega
    have hfirst := waitForLoop_first (fun j => pred (timeAt t0 period j))
      (fun j => deadlineOver t0 timeout period j) fuel 0 hfuel
      (by simpa [timeAt_zero] using hp0)
    rw [hfirst] at hl
    exact (Option.some.inj hl).symm

theorem wait_for_final_witness :
    true = true ∧
      (true = true ∨ deadlineOver 0 5 1 0 = true) ∧
      (true = true → (0 : Nat) = 0) :=
  wait_for_final (fun _ => true) 5 1 0 3 true 0 (by decide)

/-- C7: with a negative timeout, `wait_for` never takes the deadline branch;
whenever it terminates it returns `true` with the predicate observed true at
the exit time; it loops forever (no fuel suffices) when the predicate never
becomes true; and it does terminate with `true` once the predicate is observed
true at some check. -/
theorem wait_for_unbounded (pred : Nat → Bool) (timeout : Int) (period t0 : Nat)
    (hneg : timeout < 0) :
    (∀ k, deadlineOver t0 timeout period k = false) ∧
      (∀ fuel b k, wait_for pred timeout period t0 fuel = some (b, k) →
        b = true ∧ pred (timeAt t0 period k) = true) ∧
      ((∀ k, pred (timeAt t0 period k) = false) →
        ∀ fuel, wait_for pred timeout period t0 fuel = none) ∧
      (∀ k0 fuel, pred (timeAt t0 period k0) = true → k0 < fuel →
        ∃ k, wait_for pred timeout period t0 fuel = some (true, k)) := by
  have hdl : ∀ k, deadlineOver t0 timeout period k = false := by
    intro k; simp [deadlineOver, hneg]
  refine ⟨hdl, ?_, ?_, ?_⟩
  · intro fuel b k h
    unfold wait_for at h
    cases hl : waitForLoop (fun j => pred (timeAt t0 period j))
        (fun j => deadlineOver t0 timeout period j) fuel 0 with
    | none => rw [hl] at h; simp at h
    | some k0 =>
      rw [hl] at h
      simp only [Option.some.injEq, Prod.mk.injEq] at h
      obtain ⟨hb, hk⟩ := h
      subst hk
      have hexit := waitForLoop_exit _ _ fuel 0 k0 hl
      rcases hexit.2 with hc | hs
      · exact ⟨by rw [← hb]; exact hc, hc⟩
      · rw [hdl k0] at hs; exact absurd hs (by simp)
  · intro hnever fuel
    unfold wait_for
    rw [waitForLoop_never _ _ (fun k => hnever k) (fun k => hdl k) fuel 0]
  · intro k0 fuel hk0 hlt
    obtain ⟨k, hk⟩ := waitForLoop_reaches (fun j => pred (timeAt t0 period j))
      (fun j => deadlineOver t0 timeout period j) k0 0 fuel
      (by simpa using hk0) hlt
    have hexit := waitForLoop_exit _ _ fuel 0 k hk
    rcases hexit.2 with hc | hs
    · refine ⟨k, ?_⟩
      unfold wait_for
      rw [hk]
      simp only [Option.some.injEq, Prod.mk.injEq]
      exact ⟨by simpa using hc, trivial⟩
    · rw [hdl k] at hs; exact absurd hs (by simp)

theorem wait_for_unbounded_witness :
    ∃ k, wait_for (fun _ => true) (-1) 1 0 3 = some (true, k) :=
  (wait_for_unbounded (fun _ => true) (-1) 1 0 (by decide)).2.2.2 0 3 (by decide)
    (by decide)

/-- C9: `bind(f, a...)` yields a callable computing `f` on the bound arguments
followed by the call-time arguments (with keyword dictionaries merged the way
`functools.partial` merges them); its introspectable signature equals `f`'s
original signature, not a generic variadic one; in particular binding two
arguments and calling with none behaves identically to calling `f` on those
two arguments. -/
theorem bind_behavior (V : Type) (f : PyFunc V) (a b : List V)
    (kw kw2 : String → Option V) :
    (bindFunc f a kw).call b kw2 = f.call (a ++ b) (kwMerge kw kw2) ∧
      (bindFunc f a kw).sig = f.sig ∧
      (f.sig ≠ genericVariadicSig → (bindFunc f a kw).sig ≠ genericVariadicSig) ∧
      (bindFunc sampleAdd [1, 2] noKw).call [] noKw = sampleAdd.call [1, 2] noKw := by
  refine ⟨rfl, rfl, ?_, ?_⟩
  · exact fun h => h
  · rfl

theorem bind_behavior_witness :
    (bindFunc sampleAdd [1, 2] noKw).call [] noKw =
        sampleAdd.call ([1, 2] ++ []) (kwMerge noKw noKw) ∧
      (bindFunc sampleAdd [1, 2] noKw).sig = sampleAdd.sig ∧
      (bindFunc sampleAdd [1, 2] noKw).sig ≠ genericVariadicSig ∧
      (bindFunc sampleAdd [1, 2] noKw).call [] noKw = sampleAdd.call [1, 2] noKw := by
  have h := bind_behavior Nat sampleAdd [1, 2] [] noKw noKw
  exact ⟨h.1, h.2.1, h.2.2.1 (by decide), h.2.2.2⟩

/-- C4: with a regex filter supplied, a name is retained exactly when the
regex matches it; the matcher accepts exactly when some prefix of the name
(from the start) fully matches, not only when the whole name does; on the
spec's example, the filter `^x` over `x1, x2, y1` keeps exactly `x1, x2`,
and `^x` accepts `x1` while not matching it as a whole string. -/
theorem filter_match_semantics :
    (∀ (r : Rx) (names : List String) (name : String),
      name ∈ filterNames (some r) names ↔ name ∈ names ∧ r.rmatch name = true) ∧
      (∀ (r : Rx) (s : String),
        r.rmatch s = true ↔
          ∃ p q : List Char, s.data = p ++ q ∧ r.matchWhole true p = true) ∧
      filterNames (some rxCaretX) ["x1", "x2", "y1"] = ["x1", "x2"] ∧
      rxCaretX.rmatch "x1" = true ∧
      rxCaretX.matchWhole true "x1".data = false := by
  refine ⟨?_, ?_, by decide, by decide, by decide⟩
  · intro r names name
    simp [filterNames, List.mem_filter]
  · intro r s
    constructor
    · exact fun h => matchWhole_of_matchFrom r true s.data h
    · rintro ⟨p, q, hpq, hm⟩
      rw [Rx.rmatch, hpq]
      exact matchFrom_of_matchWhole r true p q hm

theorem filter_match_semantics_witness :
    "x1" ∈ filterNames (some rxCaretX) ["x1", "x2", "y1"] ↔
      "x1" ∈ ["x1", "x2", "y1"] ∧ rxCaretX.rmatch "x1" = true :=
  filter_match_semantics.1 rxCaretX ["x1", "x2", "y1"] "x1"

/-- C2: the report iterates processes in sorted-by-ProcessName order,
independently of dispatch order: sorting the pending-call keys is invariant
under permutation, the sorted key sequence is ascending and a permutation of
the keys, the whole rendered report is the same for any dispatch order of the
same calls, and within each process the names are sorted lexicographically
before filtering (the filtered list staying sorted). -/
theorem report_sorted_order (args : Args) (w : World) :
    (∀ fs1 fs2 : List NodeName, fs1.Perm fs2 → sortNodes fs1 = sortNodes fs2) ∧
      (∀ fs : List NodeName,
        List.Sorted nodeLe (sortNodes fs) ∧ (sortNodes fs).Perm fs) ∧
      (∀ (s : RunState) (fs1 fs2 : List NodeName), fs1.Perm fs2 →
        reportAll args w (sortNodes fs1) s = reportAll args w (sortNodes fs2) s) ∧
      (∀ names : List String,
        List.Sorted (fun a b : String => a ≤ b) (sortStrings names) ∧
          (sortStrings names).Perm names) ∧
      (∀ (f : Option Rx) (names : List String),
        List.Sorted (fun a b : String => a ≤ b)
          (filterNames f (sortStrings names))) := by
  have hsortEq : ∀ fs1 fs2 : List NodeName, fs1.Perm fs2 →
      sortNodes fs1 = sortNodes fs2 := by
    intro fs1 fs2 h
    refine List.eq_of_perm_of_sorted ?_ (List.sorted_insertionSort nodeLe fs1)
      (List.sorted_insertionSort nodeLe fs2)
    exact ((List.perm_insertionSort nodeLe fs1).trans h).trans
      (List.perm_insertionSort nodeLe fs2).symm
  refine ⟨hsortEq, ?_, ?_, ?_, ?_⟩
  · intro fs
    exact ⟨List.sorted_insertionSort nodeLe fs, List.perm_insertionSort nodeLe fs⟩
  · intro s fs1 fs2 h
    rw [hsortEq fs1 fs2 h]
  · intro names
    exact ⟨List.sorted_insertionSort _ names, List.perm_insertionSort _ names⟩
  · intro f names
    cases f with
    | none => exact List.sorted_insertionSort _ names
    | some r => exact (List.sorted_insertionSort _ names).filter _

theorem report_sorted_order_witness :
    sortNodes [⟨"/b"⟩, ⟨"/a"⟩] = sortNodes [⟨"/a"⟩, ⟨"/b"⟩] :=
  (report_sorted_order
    { node_name := none
      filter := none
      include_hidden_nodes := false
      param_prefs := []
      param_type := false }
    { node_names := fun _ => []
      service_names := fun _ => []
      ready := fun _ _ => true
      outcome := fun _ _ => .ok []
      descriptors := fun _ _ => []
      typeStr := fun _ => "" }).1 [⟨"/b"⟩, ⟨"/a"⟩] [⟨"/a"⟩, ⟨"/b"⟩] (by decide)

/-- C3: a process whose pending call yields no result or raises contributes
exactly one stderr line naming the process and the cause, nothing to stdout,
no describe call and no raised exception (so the batch is not aborted), and
the printing loop then continues through the remaining processes exactly as a
sequential continuation. -/
theorem failed_call_skipped (args : Args) (w : World) :
    (∀ (s : RunState) (n : NodeName) (e : String), s.exc = none →
      w.outcome n args.param_prefs = .err e →
      reportStep args w s n = { s with err := s.err ++ [errLine n e] }) ∧
      (∀ (s : RunState) (l1 l2 : List NodeName) (n : NodeName),
        reportAll args w (l1 ++ n :: l2) s =
          reportAll args w l2 (reportStep args w (reportAll args w l1 s) n)) := by
  constructor
  · intro s n e hexc herr
    simp [reportStep, hexc, herr]
  · intro s l1 l2 n
    simp [reportAll, List.foldl_append]

theorem failed_call_skipped_witness :
    reportStep
        { node_name := none
          filter := none
          include_hidden_nodes := false
          param_prefs := []
          param_type := false }
        { node_names := fun _ => [⟨"/a"⟩]
          service_names := fun _ => ["/a/list_parameters"]
          ready := fun _ _ => true
          outcome := fun _ _ => .err "boom"
          descriptors := fun _ _ => []
          typeStr := fun _ => "" }
        initState ⟨"/a"⟩ =
      { initState with err := initState.err ++ [errLine ⟨"/a"⟩ "boom"] } :=
  (failed_call_skipped _ _).1 initState ⟨"/a"⟩ "boom" rfl rfl

/-- C8: for a successfully reported process, the stdout contribution is the
header line `<process name>:` — present exactly when no single process was
targeted on the command line and the filtered name list is non-empty —
followed by the body lines. -/
theorem header_printed_iff (args : Args) (w : World) (s : RunState) (n : NodeName)
    (names : List String) (hexc : s.exc = none)
    (hok : w.outcome n args.param_prefs = .ok names) :
    (reportStep args w s n).out =
      s.out ++
        (if pyTruthy args.node_name = false ∧
            filterNames args.filter (sortStrings names) ≠ []
          then [n.full_name ++ ":"] else []) ++
        bodyLines args w n (filterNames args.filter (sortStrings names)) := by
  by_cases hpt : args.param_type = true
  · simp [reportStep, hexc, hok, bodyLines, hpt]
  · simp only [Bool.not_eq_true] at hpt
    simp [reportStep, hexc, hok, bodyLines, hpt]

theorem header_printed_iff_witness :
    (reportStep
        { node_name := none
          filter := none
          include_hidden_nodes := false
          param_prefs := []
          param_type := false }
        { node_names := fun _ => [⟨"/a"⟩]
          service_names := fun _ => ["/a/list_parameters"]
          ready := fun _ _ => true
          outcome := fun _ _ => .ok ["p"]
          descriptors := fun _ _ => []
          typeStr := fun _ => "" }
        initState ⟨"/a"⟩).out =
      initState.out ++
        (if pyTruthy none = false ∧ filterNames none (sortStrings ["p"]) ≠ []
          then ["/a" ++ ":"] else []) ++
        bodyLines
          { node_name := none
            filter := none
            include_hidden_nodes := false
            param_prefs := []
            param_type := false }
          { node_names := fun _ => [⟨"/a"⟩]
            service_names := fun _ => ["/a/list_parameters"]
            ready := fun _ _ => true
            outcome := fun _ _ => .ok ["p"]
            descriptors := fun _ _ => []
            typeStr := fun _ => "" }
          ⟨"/a"⟩ (filterNames none (sortStrings ["p"])) :=
  header_printed_iff _ _ initState ⟨"/a"⟩ ["p"] rfl rfl

/-- C5: for every process that exposed the listing endpoint at discovery time
there is exactly one client (the pool is duplicate-free and holds exactly the
discovered nodes whose derived endpoint exists); every fan-out pass keeps the
pending-call set duplicate-free (never two concurrent calls to one process);
and whenever the dispatch loop terminates, the issued calls are exactly a
permutation of the client pool — every created client called exactly once. -/
theorem client_pool_invariant (nodes : List NodeName) (svc : List String)
    (rdy : Nat → NodeName → Bool) (hnd : nodes.Nodup) :
    (createClients svc nodes).Nodup ∧
      (∀ n, n ∈ createClients svc nodes ↔ n ∈ nodes ∧ listSvc n ∈ svc) ∧
      (∀ (round : Nat) (fut : List NodeName), fut.Nodup →
        (dispatchPass (rdy round) (createClients svc nodes) fut).Nodup) ∧
      (∀ (fuel round : Nat) (fut fs : List NodeName), fut.Nodup →
        fut ⊆ createClients svc nodes →
        dispatchLoop rdy (createClients svc nodes) round fuel fut = some fs →
        fs.Perm (createClients svc nodes) ∧
          ∀ c ∈ createClients svc nodes, fs.count c = 1) := by
  have hclnd : (createClients svc nodes).Nodup := hnd.filter _
  refine ⟨hclnd, ?_, ?_, ?_⟩
  · intro n
    simp [createClients, List.mem_filter]
  · intro round fut hf
    exact dispatchPass_nodup _ _ _ hclnd hf
  · intro fuel round fut fs hf hsub h
    obtain ⟨h1, h2, h3⟩ :=
      dispatchLoop_some rdy (createClients svc nodes) hclnd fuel round fut fs hf hsub h
    have hperm := perm_of_nodup_subset_length h1 h2 h3
    refine ⟨hperm, ?_⟩
    intro c hc
    rw [hperm.count_eq]
    exact List.count_eq_one_of_mem hclnd hc

theorem client_pool_invariant_witness :
    ([⟨"/a"⟩] : List NodeName).Perm
        (createClients ["/a/list_parameters"] [⟨"/a"⟩, ⟨"/b"⟩]) ∧
      ∀ c ∈ createClients ["/a/list_parameters"] [⟨"/a"⟩, ⟨"/b"⟩],
        ([⟨"/a"⟩] : List NodeName).count c = 1 :=
  (client_pool_invariant [⟨"/a"⟩, ⟨"/b"⟩] ["/a/list_parameters"]
      (fun _ _ => true) (by decide)).2.2.2 1 0 [] [⟨"/a"⟩]
    (by decide) (List.nil_subset _) (by decide)

/-- C10: when every name of the filtered, sorted list has a descriptor in the
`DescribeParameters` response, the unguarded side-table lookup never fails and
every line renders as `  <name> (type: <label>)`; a lookup is defined for
every such name; and without that precondition the lookup's error branch is
reachable (a concrete response missing one name raises a `KeyError`). -/
theorem typed_lookup_safety (ts : Nat → String) (resp : List ParamDescriptor)
    (ns : List String)
    (hcov : ∀ name ∈ ns, name ∈ resp.map ParamDescriptor.name) :
    (typedLines (typeMap ts resp) ns).2 = none ∧
      (typedLines (typeMap ts resp) ns).1 =
        ns.map (fun name =>
          fmtTyped name ((dictLookup name (typeMap ts resp)).getD "")) ∧
      (∀ name ∈ ns, (dictLookup name (typeMap ts resp)).isSome = true) ∧
      (typedLines (typeMap (fun _ => "integer") [⟨"a", 2⟩]) ["a", "b"]).2 =
        some (keyError "b") := by
  have hfst : (typeMap ts resp).map Prod.fst = resp.map ParamDescriptor.name := by
    simp [typeMap, List.map_map, Function.comp]
  have hsome : ∀ name ∈ ns, (dictLookup name (typeMap ts resp)).isSome = true := by
    intro name hn
    rw [dictLookup_isSome, hfst]
    exact hcov name hn
  have htot := typedLines_total (typeMap ts resp) ns hsome
  exact ⟨by rw [htot], by rw [htot], hsome, by decide⟩

theorem typed_lookup_safety_witness :
    (typedLines (typeMap (fun _ => "integer") [⟨"a", 2⟩, ⟨"b", 3⟩]) ["a", "b"]).2 =
      none :=
  (typed_lookup_safety (fun _ => "integer") [⟨"a", 2⟩, ⟨"b", 3⟩] ["a", "b"]
    (by decide)).1
